import Mathlib

/-!
Shallow embedding of the Tiny-URL library (src/index.ts, src/utils.ts).

JavaScript numbers are modelled as exact integers (`Int`/`Nat`): every value
reached in the claims stays far below 2^53, where IEEE doubles are exact.
JavaScript strings are modelled as Lean `String`s; `charCodeAt` sequences are
modelled by `charCodes`, mapping each character to its code point (this agrees
with UTF-16 code units for all strings whose characters lie in the basic
multilingual plane, which covers every input considered here).
The 32-bit semantics of the JavaScript shift operator is made explicit through
`toInt32`.  Fallible code (`throw`) is modelled with `Except`; the in-memory
`Map` store is modelled as a function `Int → Option String` with explicit
state passing.
-/

/-- ECMAScript ToInt32: reduce an exact integer into the signed 32-bit range
with two's-complement wrap-around. -/
def toInt32 (x : Int) : Int := (x + 2 ^ 31) % 2 ^ 32 - 2 ^ 31

/-- Code points of a string, modelling the `charCodeAt` sequence (exact for
basic-multilingual-plane strings). -/
def charCodes (s : String) : List Nat := s.data.map Char.toNat

/-- One step of the djb2 loop in `createShortUrl`
(src/index.ts: `hash = (hash << 5) + hash + char`).  Only the shift operator
applies 32-bit semantics; the two additions are ordinary number additions. -/
def djb2Step (h : Int) (c : Nat) : Int := toInt32 (toInt32 h * 32) + h + (c : Int)

/-- The djb2 hash loop of `createShortUrl` (src/index.ts), seeded with 5381. -/
def djb2Hash (cs : List Nat) : Int := cs.foldl djb2Step 5381

/-- One step of the sdbm loop in `createShortUrl`
(src/index.ts: `hash = char + (hash << 6) + (hash << 16) - hash`). -/
def sdbmStep (h : Int) (c : Nat) : Int :=
  (c : Int) + toInt32 (toInt32 h * 64) + toInt32 (toInt32 h * 65536) - h

/-- The sdbm hash loop of `createShortUrl` (src/index.ts), seeded with 0. -/
def sdbmHash (cs : List Nat) : Int := cs.foldl sdbmStep 0

/-- Modelled from the spec (§4.1): one step of the DJB2 variant the
specification describes, `new_hash = (hash × 33) + code` wrapped to a 32-bit
signed two's-complement integer after the multiply-add. -/
def djb2WrapStep (h : Int) (c : Nat) : Int := toInt32 (33 * h + (c : Int))

/-- Modelled from the spec (§4.1): the DJB2 variant the specification
describes, wrapping to 32 bits after every multiply-add step.  This
definition follows the spec's words; the code's actual loop is `djb2Hash`. -/
def djb2HashWrapped (cs : List Nat) : Int := cs.foldl djb2WrapStep 5381

/-- The base-62 alphabet `CHARACTERS` of src/utils.ts. -/
def CHARACTERS : String :=
  "ABCDEFGHIJKLMNOPQRSTUVWXYZabcdefghijklmnopqrstuvwxyz0123456789"

/-- `BASE = CHARACTERS.length` (src/utils.ts). -/
def BASE : Nat := CHARACTERS.length

/-- `CHARACTERS[i]` for an in-range index (out-of-range access cannot occur:
the only indices used are `num % BASE` with `num > 0`, and `0`). -/
def alphabetChar (i : Nat) : Char := CHARACTERS.data.getD i 'A'

/-- `CHARACTERS.indexOf(char)` (src/utils.ts), with `-1` modelled as `none`. -/
def charIndex (c : Char) : Option Nat := List.indexOf? c CHARACTERS.data

/-- The `while (num > 0)` loop of `encodeId` (src/utils.ts): prepend
`CHARACTERS[num % BASE]`, then `num = Math.floor(num / BASE)` (for positive
`num`, Lean's integer division agrees with `Math.floor`). -/
def encodeIdList (num : Int) (shortUrl : List Char) : List Char :=
  if 0 < num then
    encodeIdList (num / (BASE : Int)) (alphabetChar (num % (BASE : Int)).toNat :: shortUrl)
  else
    shortUrl
termination_by num.toNat
decreasing_by
  have hB : (BASE : Int) = 62 := rfl
  rw [hB]
  omega

/-- `encodeId` (src/utils.ts): base-62 digits of `id`, most significant first;
the empty result (JavaScript falsy string) is replaced by `CHARACTERS[0]`. -/
def encodeId (id : Int) : String :=
  let shortUrl := encodeIdList id []
  if shortUrl.isEmpty then String.mk [alphabetChar 0] else String.mk shortUrl

/-- The error thrown by `decodeShortUrl` (src/utils.ts):
`Invalid character in short URL: ${char}`, carrying the offending character. -/
inductive DecodeError where
  | invalidCharacter (c : Char)
deriving DecidableEq

/-- The loop of `decodeShortUrl` (src/utils.ts): left-to-right over the
characters, `id = id * BASE + charIndex`, throwing on a character whose
`indexOf` is `-1`. -/
def decodeLoop : List Char → Nat → Except DecodeError Nat
  | [], id => .ok id
  | c :: rest, id =>
    match charIndex c with
    | none => .error (.invalidCharacter c)
    | some charIdx => decodeLoop rest (id * BASE + charIdx)

/-- `decodeShortUrl` (src/utils.ts). -/
def decodeShortUrl (shortCode : String) : Except DecodeError Nat :=
  decodeLoop shortCode.data 0

/-- `ShortUrlOptions` (src/utils.ts) after merging with the defaults: every
field present.  JavaScript truthiness of the string fields is the
`≠ ""` test in `buildShortUrl`. -/
structure ShortUrlOptions where
  domain : String
  includeRedirectPath : Bool
  redirectPathSegment : String
  includeProtocol : Bool
  protocol : String
  pathSeparator : String

/-- `DEFAULT_SHORT_URL_OPTIONS` (src/utils.ts). -/
def DEFAULT_SHORT_URL_OPTIONS : ShortUrlOptions :=
  { domain := "short.url"
    includeRedirectPath := true
    redirectPathSegment := "r"
    includeProtocol := false
    protocol := "https"
    pathSeparator := "/" }

/-- `buildShortUrl` (src/utils.ts), on an already-merged options object (the
string-overload merge path is not needed by the claims).  The conditions
mirror the JavaScript truthiness tests `opts.includeProtocol && opts.protocol`
and `opts.includeRedirectPath && opts.redirectPathSegment`: a string is
truthy exactly when it is non-empty. -/
def buildShortUrl (id : Int) (opts : ShortUrlOptions) : String :=
  let shortCode := encodeId id
  let url := ""
  let url := if opts.includeProtocol ∧ opts.protocol ≠ "" then
    url ++ opts.protocol ++ "://" else url
  let url := url ++ opts.domain
  let url := if opts.includeRedirectPath ∧ opts.redirectPathSegment ≠ "" then
    url ++ opts.pathSeparator ++ opts.redirectPathSegment else url
  url ++ opts.pathSeparator ++ shortCode

/-- The in-memory `urlStorage : Map<number, string>` (src/utils.ts), modelled
as a function from numeric ids to optionally stored URLs. -/
def Store : Type := Int → Option String

/-- The empty store (a fresh `new Map()`). -/
def emptyStore : Store := fun _ => none

/-- `storeUrlMapping` (src/utils.ts): `urlStorage.set(id, originalUrl)`. -/
def storeUrlMapping (id : Int) (originalUrl : String) (s : Store) : Store :=
  fun k => if k = id then some originalUrl else s k

/-- `getOriginalUrl` (src/utils.ts): `urlStorage.get(id)`. -/
def getOriginalUrl (s : Store) (id : Int) : Option String := s id

/-- The hash-algorithm selector of `CreateShortUrlOptions` (src/index.ts). -/
inductive HashAlgorithm where
  | djb2
  | sdbm
  | custom
deriving DecidableEq

/-- `CreateShortUrlOptions` (src/index.ts) after merging with the defaults. -/
structure CreateShortUrlOptions extends ShortUrlOptions where
  hashAlgorithm : HashAlgorithm
  customHashFn : Option (String → Int)

/-- `DEFAULT_CREATE_OPTIONS` (src/index.ts). -/
def DEFAULT_CREATE_OPTIONS : CreateShortUrlOptions :=
  { DEFAULT_SHORT_URL_OPTIONS with hashAlgorithm := .djb2, customHashFn := none }

/-- The hash selection of `createShortUrl` (src/index.ts): custom function
when selected and supplied, sdbm when selected, otherwise djb2 (also the
fallback when `custom` is selected without a function). -/
def computeHash (opts : CreateShortUrlOptions) (longUrl : String) : Int :=
  if opts.hashAlgorithm = .custom ∧ opts.customHashFn.isSome then
    (opts.customHashFn.getD fun _ => 0) longUrl
  else if opts.hashAlgorithm = .sdbm then
    sdbmHash (charCodes longUrl)
  else
    djb2Hash (charCodes longUrl)

/-- `positiveHash = Math.abs(hash)` in `createShortUrl` (src/index.ts). -/
def computeIdentifier (opts : CreateShortUrlOptions) (longUrl : String) : Int :=
  |computeHash opts longUrl|

/-- `createShortUrl` (src/index.ts) on already-merged options: the `domain`
parameter overrides the options' domain, the hash is computed, its absolute
value is stored against the long URL, and the short URL is built.  The store
is passed and returned explicitly. -/
def createShortUrl (longUrl : String) (domain : String)
    (options : CreateShortUrlOptions) (store : Store) : String × Store :=
  let opts := { options with domain := domain }
  let positiveHash := computeIdentifier opts longUrl
  let store' := storeUrlMapping positiveHash longUrl store
  (buildShortUrl positiveHash opts.toShortUrlOptions, store')

/-- JavaScript `split` with a single-character separator, on the character
sequence of a string: `"".split(sep)` is `[""]`, and separators delimit
(possibly empty) groups. -/
def splitOnChar (sep : Char) : List Char → List (List Char)
  | [] => [[]]
  | c :: rest =>
    let r := splitOnChar sep rest
    if c = sep then [] :: r
    else
      match r with
      | [] => [[c]]
      | group :: groups => (c :: group) :: groups

/-- `extractShortCode` (src/index.ts): strip a leading `http://` or
`https://` (the regex `^https?:\/\/`, greedy in the optional `s`), split on
`/`, take the last segment.  Modelled on the character sequence of the
string, which is what the JavaScript string operations act on. -/
def extractShortCode (shortUrl : String) : String :=
  let cs := shortUrl.data
  let urlWithoutProtocol :=
    if List.isPrefixOf "https://".data cs then cs.drop 8
    else if List.isPrefixOf "http://".data cs then cs.drop 7
    else cs
  let parts := splitOnChar '/' urlWithoutProtocol
  String.mk (parts.getLastD [])

/-- `decodeUrl` (src/index.ts): extract the short code, decode it, look it up;
any thrown error (the decoder's `InvalidCharacter`) becomes `undefined`,
modelled as `none`. -/
def decodeUrl (store : Store) (shortUrl : String) : Option String :=
  match decodeShortUrl (extractShortCode shortUrl) with
  | .ok id => getOriginalUrl store (id : Int)
  | .error _ => none

/-- Proof-side view of the digits produced by the encode loop for a natural
number: most-significant digit first, no digits for `0`. -/
def natDigits (n : Nat) : List Char :=
  if n = 0 then [] else natDigits (n / 62) ++ [alphabetChar (n % 62)]
termination_by n
decreasing_by exact Nat.div_lt_self (by omega) (by omega)

/-- Modelled from the spec (§6, the claim's reading): the concatenation
`[protocol + "://"]? + domain + [separator + redirectSegment]? + separator +
shortCode`, with each optional part present exactly when its inclusion flag
is enabled.  Compared against the source's `buildShortUrl`. -/
def buildShortUrlSpec (id : Int) (opts : ShortUrlOptions) : String :=
  (if opts.includeProtocol then opts.protocol ++ "://" else "") ++
    opts.domain ++
    (if opts.includeRedirectPath then opts.pathSeparator ++ opts.redirectPathSegment else "") ++
    opts.pathSeparator ++ encodeId id

/-! ### Arithmetic lemmas about the hash accumulators -/

/-- `toInt32` always lands in the signed 32-bit range. -/
lemma toInt32_range (x : Int) : -2 ^ 31 ≤ toInt32 x ∧ toInt32 x < 2 ^ 31 := by
  unfold toInt32
  omega

/-- `toInt32` preserves the residue modulo `2^32`. -/
lemma toInt32_emod (x : Int) : toInt32 x % 2 ^ 32 = x % 2 ^ 32 := by
  unfold toInt32
  omega

/-- One step of the code's djb2 loop agrees, modulo `2^32`, with one step of
the fully wrapped djb2 recurrence. -/
lemma djb2Step_emod (h w : Int) (c : Nat) (hw : h % 2 ^ 32 = w % 2 ^ 32) :
    djb2Step h c % 2 ^ 32 = djb2WrapStep w c % 2 ^ 32 := by
  unfold djb2Step djb2WrapStep toInt32
  omega

/-- The code's djb2 fold and the fully wrapped fold stay congruent
modulo `2^32` from congruent seeds. -/
lemma djb2_foldl_emod (cs : List Nat) :
    ∀ h w : Int, h % 2 ^ 32 = w % 2 ^ 32 →
      (cs.foldl djb2Step h) % 2 ^ 32 = (cs.foldl djb2WrapStep w) % 2 ^ 32 := by
  induction cs with
  | nil => intro h w hw; simpa using hw
  | cons c cs ih =>
    intro h w hw
    simp only [List.foldl_cons]
    exact ih _ _ (djb2Step_emod h w c hw)

/-- The fully wrapped fold stays in the signed 32-bit range once seeded
there. -/
lemma wrapped_foldl_range (cs : List Nat) :
    ∀ h : Int, -2 ^ 31 ≤ h → h < 2 ^ 31 →
      -2 ^ 31 ≤ cs.foldl djb2WrapStep h ∧ cs.foldl djb2WrapStep h < 2 ^ 31 := by
  induction cs with
  | nil => intro h h1 h2; exact ⟨h1, h2⟩
  | cons c cs ih =>
    intro h h1 h2
    simp only [List.foldl_cons]
    have hr := toInt32_range (33 * h + (c : Int))
    exact ih _ hr.1 hr.2

/-- One djb2 step grows the accumulator's absolute value by at most
`2^31 + c`. -/
lemma abs_djb2Step_le (h : Int) (c : Nat) :
    |djb2Step h c| ≤ |h| + 2 ^ 31 + (c : Int) := by
  have ht := toInt32_range (toInt32 h * 32)
  have h1 : h ≤ |h| := le_abs_self h
  have h2 : -|h| ≤ h := neg_abs_le h
  unfold djb2Step
  rw [abs_le]
  constructor <;> omega

/-- The djb2 accumulator is bounded in absolute value by its seed plus
`2^31` per character plus the sum of the character codes. -/
lemma abs_djb2_foldl_le (cs : List Nat) :
    ∀ h : Int, |cs.foldl djb2Step h| ≤
      |h| + (cs.length : Int) * 2 ^ 31 + (cs.sum : Int) := by
  induction cs with
  | nil => intro h; simp
  | cons c cs ih =>
    intro h
    simp only [List.foldl_cons, List.length_cons, List.sum_cons]
    have h1 := ih (djb2Step h c)
    have h2 := abs_djb2Step_le h c
    push_cast
    push_cast at h1
    omega

/-! ### Codec lemmas -/

/-- Each alphabet character is found by `indexOf` at its own position. -/
lemma charIndex_alphabetChar : ∀ i : Fin 62, charIndex (alphabetChar i) = some i := by
  decide

/-- The digits of `0` are empty. -/
lemma natDigits_zero : natDigits 0 = [] := by
  rw [natDigits]
  simp

/-- A nonzero number has at least one digit. -/
lemma natDigits_ne_nil (n : Nat) (h : n ≠ 0) : natDigits n ≠ [] := by
  rw [natDigits, if_neg h]
  simp

/-- The source's encode loop on a natural-number input produces exactly the
digits of the number, prepended to the accumulator. -/
lemma encodeIdList_natCast (n : Nat) :
    ∀ acc, encodeIdList (n : Int) acc = natDigits n ++ acc := by
  induction n using Nat.strong_induction_on with
  | _ n ih =>
    intro acc
    rw [encodeIdList, natDigits]
    by_cases h : n = 0
    · subst h
      simp
    · have h0 : (0 : Int) < (n : Int) := by omega
      rw [if_pos h0, if_neg h]
      have hB : (BASE : Int) = 62 := rfl
      have hdiv : (n : Int) / (BASE : Int) = ((n / 62 : Nat) : Int) := by
        rw [hB]
        omega
      have hmod : ((n : Int) % (BASE : Int)).toNat = n % 62 := by
        rw [hB]
        omega
      rw [hdiv, hmod, ih (n / 62) (Nat.div_lt_self (Nat.pos_of_ne_zero h) (by omega))]
      simp

/-- Every digit character produced by `natDigits` is in the alphabet. -/
lemma natDigits_valid (n : Nat) : ∀ c ∈ natDigits n, (charIndex c).isSome := by
  induction n using Nat.strong_induction_on with
  | _ n ih =>
    rw [natDigits]
    by_cases h : n = 0
    · simp [h]
    · rw [if_neg h]
      intro c hc
      rcases List.mem_append.mp hc with h1 | h2
      · exact ih (n / 62) (Nat.div_lt_self (Nat.pos_of_ne_zero h) (by omega)) c h1
      · have hc' : c = alphabetChar (n % 62) := List.mem_singleton.mp h2
        subst hc'
        have hx : charIndex (alphabetChar (n % 62)) = some (n % 62) :=
          charIndex_alphabetChar ⟨n % 62, by omega⟩
        simp [hx]

/-- Folding the decode accumulation over the digits of `n` recovers `n`,
shifted under the incoming accumulator. -/
lemma natDigits_foldl (n : Nat) :
    ∀ id : Nat, (natDigits n).foldl (fun id c => id * 62 + (charIndex c).getD 0) id
      = id * 62 ^ (natDigits n).length + n := by
  induction n using Nat.strong_induction_on with
  | _ n ih =>
    intro id
    rw [natDigits]
    by_cases h : n = 0
    · simp [h]
    · rw [if_neg h]
      rw [List.foldl_append, List.length_append]
      rw [ih (n / 62) (Nat.div_lt_self (Nat.pos_of_ne_zero h) (by omega)) id]
      have hx : charIndex (alphabetChar (n % 62)) = some (n % 62) :=
        charIndex_alphabetChar ⟨n % 62, by omega⟩
      simp only [List.foldl_cons, List.foldl_nil, List.length_singleton, hx, Option.getD_some]
      have hdm : 62 * (n / 62) + n % 62 = n := Nat.div_add_mod n 62
      calc (id * 62 ^ (natDigits (n / 62)).length + n / 62) * 62 + n % 62
          = id * (62 ^ (natDigits (n / 62)).length * 62) + (62 * (n / 62) + n % 62) := by ring
        _ = id * 62 ^ ((natDigits (n / 62)).length + 1) + n := by rw [pow_succ, hdm]

/-- On a list of alphabet characters the decode loop succeeds with the
accumulated base-62 value. -/
lemma decodeLoop_ok : ∀ l : List Char, (∀ c ∈ l, (charIndex c).isSome) →
    ∀ id : Nat, decodeLoop l id =
      .ok (l.foldl (fun id c => id * 62 + (charIndex c).getD 0) id) := by
  intro l
  induction l with
  | nil => intro _ id; rfl
  | cons c rest ih =>
    intro hv id
    have hc := hv c (List.mem_cons_self c rest)
    rcases Option.isSome_iff_exists.mp hc with ⟨i, hi⟩
    have hB : BASE = 62 := rfl
    simp only [decodeLoop, hi, List.foldl_cons, Option.getD_some, hB]
    exact ih (fun c hc => hv c (List.mem_cons_of_mem _ hc)) _

/-- The decode loop fails exactly when some character is outside the
alphabet. -/
lemma decodeLoop_error_iff : ∀ (l : List Char) (id : Nat),
    (∃ e, decodeLoop l id = .error e) ↔ ∃ c ∈ l, charIndex c = none := by
  intro l
  induction l with
  | nil => intro id; simp [decodeLoop]
  | cons c rest ih =>
    intro id
    cases hc : charIndex c with
    | none =>
      simp only [decodeLoop, hc]
      exact ⟨fun _ => ⟨c, List.mem_cons_self c rest, hc⟩,
             fun _ => ⟨.invalidCharacter c, rfl⟩⟩
    | some i =>
      simp only [decodeLoop, hc]
      rw [ih]
      constructor
      · rintro ⟨x, hx, hnone⟩
        exact ⟨x, List.mem_cons_of_mem _ hx, hnone⟩
      · rintro ⟨x, hx, hnone⟩
        rcases List.mem_cons.mp hx with rfl | hx'
        · rw [hc] at hnone
          cases hnone
        · exact ⟨x, hx', hnone⟩

/-- When the decode loop reports an invalid character, that character occurs
in the input and is indeed outside the alphabet. -/
lemma decodeLoop_error_char : ∀ (l : List Char) (id : Nat) (c : Char),
    decodeLoop l id = .error (.invalidCharacter c) → c ∈ l ∧ charIndex c = none := by
  intro l
  induction l with
  | nil => intro id c h; cases h
  | cons d rest ih =>
    intro id c h
    cases hd : charIndex d with
    | none =>
      simp only [decodeLoop, hd, Except.error.injEq, DecodeError.invalidCharacter.injEq] at h
      subst h
      exact ⟨List.mem_cons_self d rest, hd⟩
    | some i =>
      simp only [decodeLoop, hd] at h
      have := ih _ c h
      exact ⟨List.mem_cons_of_mem _ this.1, this.2⟩

/-- `encodeId 0 = "A"`, computed from the definitions. -/
lemma encodeId_zero_eq : encodeId 0 = "A" := by
  rw [encodeId, encodeIdList]
  rfl

/-- Every non-positive input short-circuits the encode loop, so the
fallback first alphabet character is returned. -/
lemma encodeId_nonpos (n : Int) (h : ¬ 0 < n) : encodeId n = "A" := by
  rw [encodeId, encodeIdList, if_neg h]
  rfl

/-- For a positive natural-number input, `encodeId` returns exactly the
digit string. -/
lemma encodeId_pos (n : Nat) (h : n ≠ 0) : encodeId (n : Int) = String.mk (natDigits n) := by
  rw [encodeId, encodeIdList_natCast n []]
  rw [List.append_nil]
  have : (natDigits n).isEmpty = false := by
    rcases hd : natDigits n with _ | ⟨c, l⟩
    · exact absurd hd (natDigits_ne_nil n h)
    · rfl
  simp [this]

/-! ### Claim theorems -/

set_option maxRecDepth 4000 in
/-- C1 (counterexample): on the input string `"3fZJZ2"` the accumulator of
the code's djb2 loop ends at `2252243182`, which is outside the signed
32-bit range, and differs from the fully wrapped DJB2 value the claim
describes — the code does not wrap after every multiply-add step. -/
theorem djb2_accumulator_escapes_int32 :
    djb2Hash (charCodes "3fZJZ2") = 2252243182 ∧
    ¬ djb2Hash (charCodes "3fZJZ2") < 2 ^ 31 ∧
    djb2Hash (charCodes "3fZJZ2") ≠ djb2HashWrapped (charCodes "3fZJZ2") := by
  decide

/-- C1 (amended): the code's djb2 loop starts from seed 5381 and each step
computes `toInt32(toInt32(hash) * 32) + hash + code`: only the shift is
wrapped to 32 bits, the additions are not.  The accumulator therefore stays
congruent modulo `2^32` to the fully wrapped DJB2 value of the spec, and the
fully wrapped value always lies in the signed 32-bit range, but the code's
accumulator itself may leave that range. -/
theorem djb2_congruent_to_wrapped (cs : List Nat) :
    djb2Hash cs % 2 ^ 32 = djb2HashWrapped cs % 2 ^ 32 ∧
    -2 ^ 31 ≤ djb2HashWrapped cs ∧ djb2HashWrapped cs < 2 ^ 31 := by
  refine ⟨djb2_foldl_emod cs 5381 5381 rfl, ?_⟩
  exact wrapped_foldl_range cs 5381 (by decide) (by decide)

set_option maxRecDepth 4000 in
/-- C2 (counterexample): for the long URL `"3fZJZ2"` under the default djb2
algorithm, the identifier produced by `createShortUrl`'s normalization is
`2252243182 > 2^31`, outside the claimed range `[0, 2^31]`. -/
theorem identifier_exceeds_two_pow_31 :
    computeIdentifier DEFAULT_CREATE_OPTIONS "3fZJZ2" = 2252243182 ∧
    ¬ computeIdentifier DEFAULT_CREATE_OPTIONS "3fZJZ2" ≤ 2 ^ 31 := by
  decide

/-- C2 (amended): the identifier is always non-negative, but for the djb2
algorithm it need not lie within `[0, 2^31]`; it is only bounded by the seed
plus `2^31` per input character plus the sum of the character codes. -/
theorem identifier_nonneg_and_bounded (opts : CreateShortUrlOptions) (u : String)
    (halg : opts.hashAlgorithm = .djb2) :
    0 ≤ computeIdentifier opts u ∧
    computeIdentifier opts u ≤
      5381 + ((charCodes u).length : Int) * 2 ^ 31 + ((charCodes u).sum : Int) := by
  have hcode : computeHash opts u = djb2Hash (charCodes u) := by
    unfold computeHash
    rw [halg]
    simp
  unfold computeIdentifier
  rw [hcode]
  refine ⟨abs_nonneg _, ?_⟩
  have hb := abs_djb2_foldl_le (charCodes u) 5381
  unfold djb2Hash
  have h5 : |(5381 : Int)| = 5381 := by decide
  rw [h5] at hb
  exact hb

/-- C2 (witness for the amended theorem): concrete instance at the default
options and the one-character URL `"a"`. -/
theorem identifier_nonneg_and_bounded_witness :
    DEFAULT_CREATE_OPTIONS.hashAlgorithm = .djb2 ∧
    (0 ≤ computeIdentifier DEFAULT_CREATE_OPTIONS "a" ∧
      computeIdentifier DEFAULT_CREATE_OPTIONS "a" ≤
        5381 + ((charCodes "a").length : Int) * 2 ^ 31 + ((charCodes "a").sum : Int)) :=
  ⟨rfl, identifier_nonneg_and_bounded DEFAULT_CREATE_OPTIONS "a" rfl⟩

/-- C3: decoding the encoding of any natural number below `2^31` returns
that number. -/
theorem encode_decode_roundtrip (n : Nat) (h : n < 2 ^ 31) :
    decodeShortUrl (encodeId (n : Int)) = .ok n := by
  by_cases h0 : n = 0
  · subst h0
    rw [show ((0 : Nat) : Int) = 0 from rfl, encodeId_zero_eq]
    rfl
  · rw [encodeId_pos n h0]
    unfold decodeShortUrl
    rw [show (String.mk (natDigits n)).data = natDigits n from rfl]
    rw [decodeLoop_ok (natDigits n) (natDigits_valid n) 0]
    rw [natDigits_foldl n 0]
    simp

/-- C3 (witness): the round trip at the concrete value 12345. -/
theorem encode_decode_roundtrip_witness :
    12345 < 2 ^ 31 ∧ decodeShortUrl (encodeId ((12345 : Nat) : Int)) = .ok 12345 :=
  ⟨by decide, encode_decode_roundtrip 12345 (by decide)⟩

/-- C4: `decodeShortUrl` fails exactly when the input contains a character
absent from the 62-character alphabet; the raised error names a character
that occurs in the input and is indeed invalid; and on an all-alphabet
string it returns the left-to-right accumulation `id * 62 + digit`. -/
theorem decodeShortUrl_invalid_iff (s : String) :
    ((∃ e, decodeShortUrl s = .error e) ↔ ∃ c ∈ s.data, charIndex c = none) ∧
    (∀ c, decodeShortUrl s = .error (.invalidCharacter c) →
      c ∈ s.data ∧ charIndex c = none) ∧
    ((∀ c ∈ s.data, (charIndex c).isSome) →
      decodeShortUrl s =
        .ok (s.data.foldl (fun id c => id * 62 + (charIndex c).getD 0) 0)) :=
  ⟨decodeLoop_error_iff s.data 0,
   fun c h => decodeLoop_error_char s.data 0 c h,
   fun hv => decodeLoop_ok s.data hv 0⟩

/-- C4 (witness): the all-alphabet string `"AB"` decodes to its accumulated
value. -/
theorem decodeShortUrl_invalid_iff_witness :
    (∀ c ∈ ("AB" : String).data, (charIndex c).isSome) ∧
    decodeShortUrl "AB" =
      .ok (("AB" : String).data.foldl (fun id c => id * 62 + (charIndex c).getD 0) 0) :=
  ⟨by decide, (decodeShortUrl_invalid_iff "AB").2.2 (by decide)⟩

/-- C5: `decodeUrl` never propagates a failure: when the decoder reports an
error, and equally when the decoder succeeds but the store holds no mapping
for the decoded identifier, the result is the same uniform `none`. -/
theorem decodeUrl_uniform_no_result (store : Store) (s : String) :
    (∀ e, decodeShortUrl (extractShortCode s) = .error e → decodeUrl store s = none) ∧
    (∀ id, decodeShortUrl (extractShortCode s) = .ok id →
      getOriginalUrl store (id : Int) = none → decodeUrl store s = none) := by
  constructor
  · intro e he
    simp [decodeUrl, he]
  · intro id hid hnone
    simp [decodeUrl, hid, hnone]

/-- C5 (witness): a short URL with an invalid character and a well-formed but
unregistered short code both yield `none` on the empty store. -/
theorem decodeUrl_uniform_no_result_witness :
    (decodeShortUrl (extractShortCode "short.url/r/$") =
        .error (.invalidCharacter '$') ∧
      decodeUrl emptyStore "short.url/r/$" = none) ∧
    (decodeShortUrl (extractShortCode "short.url/r/B") = .ok 1 ∧
      getOriginalUrl emptyStore ((1 : Nat) : Int) = none ∧
      decodeUrl emptyStore "short.url/r/B" = none) :=
  ⟨⟨by rfl,
    (decodeUrl_uniform_no_result emptyStore "short.url/r/$").1
      (.invalidCharacter '$') (by rfl)⟩,
   ⟨by rfl, rfl,
    (decodeUrl_uniform_no_result emptyStore "short.url/r/B").2 1 (by rfl) rfl⟩⟩

/-- C6: `encodeId 0` is the first alphabet character `"A"`, and `encodeId`
never returns the empty string on a non-negative input. -/
theorem encodeId_zero_and_nonempty :
    encodeId 0 = "A" ∧ ∀ n : Int, 0 ≤ n → encodeId n ≠ "" := by
  refine ⟨encodeId_zero_eq, ?_⟩
  intro n hn
  by_cases h : 0 < n
  · have hn' : n = ((n.toNat : Nat) : Int) := by omega
    rw [hn', encodeId_pos n.toNat (by omega)]
    intro hcontra
    exact natDigits_ne_nil n.toNat (by omega) (congrArg String.data hcontra)
  · rw [encodeId_nonpos n h]
    intro hcontra
    exact absurd hcontra (by decide)

/-- C6 (witness): concrete instance at the non-negative input 5. -/
theorem encodeId_zero_and_nonempty_witness : (0 : Int) ≤ 5 ∧ encodeId 5 ≠ "" :=
  ⟨by decide, encodeId_zero_and_nonempty.2 5 (by decide)⟩

/-- C7 (counterexample): with protocol inclusion enabled but an empty
protocol string, the code omits the protocol part (JavaScript truthiness),
while the claimed concatenation would still prepend `"://"`. -/
theorem buildShortUrl_empty_protocol_cex :
    buildShortUrl 0
        { domain := "d", includeRedirectPath := false, redirectPathSegment := "r",
          includeProtocol := true, protocol := "", pathSeparator := "/" } ≠
      buildShortUrlSpec 0
        { domain := "d", includeRedirectPath := false, redirectPathSegment := "r",
          includeProtocol := true, protocol := "", pathSeparator := "/" } := by
  simp [buildShortUrl, buildShortUrlSpec, encodeId, encodeIdList]
  decide

/-- C7 (amended): `buildShortUrl` returns exactly the claimed concatenation,
with the protocol part present only when protocol inclusion is enabled AND
the protocol string is non-empty, and the redirect part present only when
redirect inclusion is enabled AND the segment is non-empty (the JavaScript
truthiness tests of the source). -/
theorem buildShortUrl_exact_concat (id : Int) (opts : ShortUrlOptions) :
    buildShortUrl id opts =
      (if opts.includeProtocol ∧ opts.protocol ≠ "" then opts.protocol ++ "://" else "") ++
        opts.domain ++
        (if opts.includeRedirectPath ∧ opts.redirectPathSegment ≠ "" then
          opts.pathSeparator ++ opts.redirectPathSegment else "") ++
        opts.pathSeparator ++ encodeId id := by
  unfold buildShortUrl
  by_cases h1 : opts.includeProtocol ∧ opts.protocol ≠ "" <;>
    by_cases h2 : opts.includeRedirectPath ∧ opts.redirectPathSegment ≠ "" <;>
      simp [h1, h2, String.append_assoc, String.empty_append]

/-- C8: `createShortUrl` is deterministic and idempotent: its returned short
URL does not depend on the store's prior contents, and a second call right
after a first one returns the same string. -/
theorem createShortUrl_deterministic_idempotent (u d : String)
    (o : CreateShortUrlOptions) (s₁ s₂ : Store) :
    (createShortUrl u d o s₁).1 = (createShortUrl u d o s₂).1 ∧
    (createShortUrl u d o ((createShortUrl u d o s₁).2)).1 =
      (createShortUrl u d o s₁).1 :=
  ⟨rfl, rfl⟩

/-- C9: every negative input to `encodeId` yields `"A"`: the loop guard
`num > 0` fails immediately, so the zero representation is returned. -/
theorem encodeId_negative_collapses (n : Int) (h : n < 0) : encodeId n = "A" :=
  encodeId_nonpos n (by omega)

/-- C9 (witness): concrete instance at -5. -/
theorem encodeId_negative_collapses_witness :
    (-5 : Int) < 0 ∧ encodeId (-5) = "A" :=
  ⟨by decide, encodeId_negative_collapses (-5) (by decide)⟩

/-- C10: a `createShortUrl` call updates the store exactly at the computed
identifier, setting it to the long URL, and leaves every other key's mapping
unchanged. -/
theorem createShortUrl_frame (u d : String) (o : CreateShortUrlOptions) (s : Store) :
    ((createShortUrl u d o s).2) (computeIdentifier { o with domain := d } u) = some u ∧
    ∀ k : Int, k ≠ computeIdentifier { o with domain := d } u →
      ((createShortUrl u d o s).2) k = s k := by
  constructor
  · simp [createShortUrl, storeUrlMapping]
  · intro k hk
    simp [createShortUrl, storeUrlMapping, hk]

set_option maxRecDepth 4000 in
/-- C10 (witness): concrete instance on the empty store with URL `"a"`,
checking the stored key and an untouched key 0. -/
theorem createShortUrl_frame_witness :
    ((createShortUrl "a" "d" DEFAULT_CREATE_OPTIONS emptyStore).2)
        (computeIdentifier { DEFAULT_CREATE_OPTIONS with domain := "d" } "a") = some "a" ∧
    (0 : Int) ≠ computeIdentifier { DEFAULT_CREATE_OPTIONS with domain := "d" } "a" ∧
    ((createShortUrl "a" "d" DEFAULT_CREATE_OPTIONS emptyStore).2) 0 = emptyStore 0 :=
  ⟨(createShortUrl_frame "a" "d" DEFAULT_CREATE_OPTIONS emptyStore).1,
   by decide,
   (createShortUrl_frame "a" "d" DEFAULT_CREATE_OPTIONS emptyStore).2 0 (by decide)⟩
